import Mathlib

/-!
Shallow embedding of the ingestion → dedup/rank → truncate → enrich pipeline
of the daily-news-analyst repository (src/ingest.py, src/main.py), together
with theorems settling the specification claims.

Modelling conventions:
* Python `str` is `List Char` (a sequence of code points).
* Python `datetime` values are `Nat` offsets from `datetime.min`, so
  `datetime.min` is `0` and every representable datetime is `≥ 0`; a missing
  or `None` `published_at` is `Option.none`.
* Fallible Python code returns `Except`; an uncaught exception is `.error`.
* External calls (trafilatura extraction, HTTP fetches, feed parsing) are
  oracle parameters, so theorems quantify over every possible behaviour of
  the outside world.
-/

set_option maxRecDepth 8000

namespace NewsPipeline

/-- Python `str` modelled as a list of code points. -/
abbrev Str := List Char

/-- Embed a Lean string literal as a `Str`. -/
def str (s : String) : Str := s.toList

/-- Python `str.lower`, character-wise.  Exact on ASCII; Python's full
Unicode mapping likewise never produces an uppercase ASCII letter, which is
the only fact about non-ASCII input any theorem below relies on. -/
def pyLower (s : Str) : Str := s.map Char.toLower

/-- Whitespace test of `str.strip()` (ASCII fragment of Python's table). -/
def isPySpace (c : Char) : Bool :=
  c == ' ' || c == '\t' || c == '\n' || c == '\r' || c == '\x0b' || c == '\x0c'

/-- Python `str.strip()`. -/
def pyStrip (s : Str) : Str :=
  ((s.dropWhile isPySpace).reverse.dropWhile isPySpace).reverse

/-- Python `needle in haystack` on strings: contiguous substring. -/
def pyIn (needle hay : Str) : Prop := needle <:+: hay

instance (n h : Str) : Decidable (pyIn n h) :=
  inferInstanceAs (Decidable (n <:+: h))

/-- The article record flowing through the pipeline (the dict built by the
source adapters).  `priority_score` and `fulltext` stay `none` until the
dedup stage / the enricher set them. -/
structure Article where
  title : Str
  url : Str
  source : Str
  published_at : Option Nat
  description : Str
  content : Str
  source_type : Str
  priority_score : Option Nat := none
  fulltext : Option Str := none
deriving DecidableEq

/-! ### `urllib.parse.urlparse`, as used by `normalize_url`

The model follows CPython's `urlsplit`/`urlparse` chain restricted to the
fields `normalize_url` reads: left-stripping of WHATWG control-or-space
characters and removal of tab/CR/LF, scheme recognition, netloc splitting
with the IPv6 bracket-mismatch `ValueError`, fragment and query removal,
and `;params` splitting from the last path segment for schemes in
`uses_params`.  Two record-local validations of bracketed (IPv6) netlocs
are simplified: CPython additionally accepts a well-formed IPv6/IPvFuture
literal between matching brackets, which this model treats as failing like
a mismatched bracket, and `_checknetloc`'s NFKC check concerns only
non-ASCII netlocs and is not modelled.  Either way a `ValueError` makes
`normalize_url` return its input unchanged, so no theorem below depends on
a bracketed or non-ASCII netloc. -/

/-- A WHATWG C0-control-or-space character. -/
def isC0OrSpace (c : Char) : Bool := c.val ≤ 0x20

/-- The pre-parse cleanup CPython applies to the URL text: `lstrip` of
control-or-space characters (only the left end, preserving trailing
spaces), then removal of every tab, CR and LF. -/
def whatwgClean (s : Str) : Str :=
  (s.dropWhile isC0OrSpace).filter (fun c => !(c == '\t' || c == '\r' || c == '\n'))

/-- Characters allowed in a URL scheme. -/
def isSchemeChar (c : Char) : Bool :=
  c.isAlpha || c.isDigit || c == '+' || c == '-' || c == '.'

/-- Scheme recognition: a scheme is split off when the first `:` sits at a
positive index, the first character is an ASCII letter, and everything
before the `:` is a scheme character.  Returns (lowercased scheme,
remainder); otherwise the scheme is empty and the input is untouched. -/
def splitScheme (l : Str) : Str × Str :=
  match l.findIdx? (· == ':') with
  | some i =>
    if 0 < i ∧ (l.take i).all isSchemeChar ∧ (l.headD ' ').isAlpha then
      ((l.take i).map Char.toLower, l.drop (i + 1))
    else ([], l)
  | none => ([], l)

/-- A character ending the netloc. -/
def isNetlocDelim (c : Char) : Bool := c == '/' || c == '?' || c == '#'

/-- Netloc splitting (`_splitnetloc`): the netloc runs to the first of `/`, `?`, `#`. -/
def splitNetloc (l : Str) : Str × Str :=
  (l.takeWhile (fun c => !isNetlocDelim c), l.dropWhile (fun c => !isNetlocDelim c))

/-- The last path segment: everything after the last `/`. -/
def lastSeg (p : Str) : Str := (p.reverse.takeWhile (· ≠ '/')).reverse

/-- Params splitting (`_splitparams`; its caller guarantees `;` occurs): everything from the
first `;` of the last path segment on is removed; if the path has a `/` but
no `;` after the last one, the path is returned unchanged. -/
def splitParams (p : Str) : Str :=
  if '/' ∈ p then
    let seg := lastSeg p
    let stem := p.take (p.length - seg.length)
    if ';' ∈ seg then stem ++ seg.takeWhile (· ≠ ';') else p
  else p.takeWhile (· ≠ ';')

/-- The schemes for which `urlparse` separates `;params`
(`urllib.parse.uses_params`, with `''` a member). -/
def usesParams : List Str :=
  [str "", str "ftp", str "hdl", str "prospero", str "http", str "imap",
   str "https", str "shttp", str "rtsp", str "rtsps", str "rtspu",
   str "sip", str "sips", str "mms", str "sftp", str "tel"]

/-- The params removal as `urlparse` applies it on top of `urlsplit`. -/
def paramSplitGuarded (scheme p : Str) : Str :=
  if scheme ∈ usesParams ∧ ';' ∈ p then splitParams p else p

/-- A netloc with one bracket of an IPv6 literal but not the other
(`raise ValueError("Invalid IPv6 URL")`); see the section comment for the
simplification on matched brackets. -/
def badBrackets (n : Str) : Prop :=
  ('[' ∈ n ∨ ']' ∈ n) ∧ ¬ (('[' ∈ n) ∧ (']' ∈ n))

instance (n : Str) : Decidable (badBrackets n) := by unfold badBrackets; infer_instance

/-- Model of `urlparse(url)` restricted to `(scheme, netloc, path)`; `.error` models
`ValueError`. -/
def pyUrlparse (url : Str) : Except Unit (Str × Str × Str) :=
  let l := whatwgClean url
  let (scheme, rest) := splitScheme l
  let netlocStep : Except Unit (Str × Str) :=
    if rest.take 2 = str "//" then
      let (n, r) := splitNetloc (rest.drop 2)
      if badBrackets n then .error () else .ok (n, r)
    else .ok (([] : Str), rest)
  match netlocStep with
  | .error e => .error e
  | .ok (netloc, rest2) =>
    let path0 := (rest2.takeWhile (· ≠ '#')).takeWhile (· ≠ '?')
    .ok (scheme, netloc, paramSplitGuarded scheme path0)

/-- Function `normalize_url` (ingest.py): rebuild `scheme://netloc+path`; the input is
returned unchanged when parsing raises. -/
def normalize_url (url : Str) : Str :=
  match pyUrlparse url with
  | .ok (scheme, netloc, path) => scheme ++ str "://" ++ netloc ++ path
  | .error _ => url

/-- The publisher suffixes stripped by `normalize_title`. -/
def knownSuffixes : List Str :=
  [str " - The Verge", str " | TechCrunch", str " | Ars Technica",
   str " | Wired", str " | Engadget"]

/-- Function `normalize_title` (ingest.py): drop the first matching publisher suffix,
then lowercase and strip. -/
def normalize_title (title : Str) : Str :=
  let normalized :=
    match knownSuffixes.find? (fun s => s.isSuffixOf title) with
    | some s => title.take (title.length - s.length)
    | none => title
  pyStrip (pyLower normalized)

/-- The priority keyword vocabulary, verbatim from `normalize_and_dedupe`
(note that `"trade"` occurs twice and that `"AI"` is uppercase). -/
def priorityKeywords : List Str :=
  [str "politics", str "election", str "government", str "president",
   str "congress", str "senate",
   str "world", str "global", str "international", str "foreign",
   str "diplomacy", str "trade",
   str "technology", str "science", str "innovation", str "AI",
   str "artificial intelligence",
   str "climate", str "economy", str "business", str "finance",
   str "market", str "trade",
   str "breaking", str "urgent", str "crisis", str "emergency",
   str "important", str "major"]

/-- Priority scoring: how many vocabulary entries occur as substrings of the
lowercased title (`sum(1 for keyword in priority_keywords if keyword in
title_lower)`). -/
def priorityScore (title : Str) : Nat :=
  priorityKeywords.countP (fun k => decide (pyIn k (pyLower title)))

/-- Sort key of the dedup-stage sort: `published_at or datetime.min`
(`datetime.min` is `0` in the timestamp model; a present datetime is always
truthy in Python, so only a missing/`None` value falls back). -/
def dtKey (r : Article) : Nat := r.published_at.getD 0

/-- Python's stable `list.sort(key=published_at-or-min, reverse=True)`:
stable descending sort, modelled by insertion sort with the reversed
non-strict comparison (any stable sort is extensionally unique). -/
def sortByDateDesc (l : List Article) : List Article :=
  l.insertionSort (fun a b => dtKey b ≤ dtKey a)

/-- The `(priority_score, published_at)` tuple of the final dedup-stage
sort (`x.get("priority_score", 0)`, `published_at or datetime.min`). -/
def rankKey (r : Article) : Nat × Nat := (r.priority_score.getD 0, dtKey r)

/-- Python tuple `≤` (lexicographic). -/
def tupLe (p q : Nat × Nat) : Prop := p.1 < q.1 ∨ (p.1 = q.1 ∧ p.2 ≤ q.2)

instance : DecidableRel tupLe := fun p q => by unfold tupLe; infer_instance

/-- Stable descending sort by `rankKey`. -/
def sortByRankDesc (l : List Article) : List Article :=
  l.insertionSort (fun a b => tupLe (rankKey b) (rankKey a))

/-- A kept record after the in-place `item["priority_score"] = ...`
mutation. -/
def scoredArticle (item : Article) : Article :=
  { item with priority_score := some (priorityScore item.title) }

/-- The single pass of `normalize_and_dedupe` over the date-sorted list,
with the two seen-key sets.  First component: the deduplicated output being
built.  Second component: the walked list as the caller sees it afterwards —
same records in the same order, the kept ones mutated with their score. -/
def dedupWalk : List Article → List Str → List Str → List Article × List Article
  | [], _, _ => ([], [])
  | item :: rest, seenUrls, seenTitles =>
    let nu := normalize_url item.url
    let nt := normalize_title item.title
    if nu ∈ seenUrls ∨ nt ∈ seenTitles then
      let (d, m) := dedupWalk rest seenUrls seenTitles
      (d, item :: m)
    else
      let s := scoredArticle item
      let (d, m) := dedupWalk rest (nu :: seenUrls) (nt :: seenTitles)
      (s :: d, s :: m)

/-- Function `normalize_and_dedupe`.  First component: the caller's list after the
call (`items.sort(...)` is in place, and kept dicts gain `priority_score`).
Second component: the value returned to the caller — the deduplicated list,
sorted by descending `(priority_score, published_at)`. -/
def normalize_and_dedupe (items : List Article) : List Article × List Article :=
  let sortedItems := sortByDateDesc items
  let (dedup, mutated) := dedupWalk sortedItems [] []
  (mutated, sortByRankDesc dedup)

/-- One iteration of the `enrich_with_text` loop.  `extract` models
`extract_fulltext` over the network (`none` when extraction fails or yields
nothing; `extract_fulltext` may also return a stripped-empty string, which
the code's truthiness test rejects).  Returns the enriched record (`none`
when the record is dropped) and whether a live extraction was attempted. -/
def enrichStep (extract : Str → Option Str) (minChars : Int) (item : Article) :
    Option Article × Bool :=
  if item.content ≠ [] ∧ minChars < (item.content.length : Int) then
    (some { item with fulltext := some item.content }, false)
  else if item.description ≠ [] ∧ minChars < (item.description.length : Int) then
    (some { item with fulltext := some item.description }, false)
  else
    match extract item.url with
    | some t =>
      if t ≠ [] ∧ minChars < (t.length : Int) then
        (some { item with fulltext := some t }, true)
      else if item.description ≠ [] then
        (some { item with fulltext := some item.description }, true)
      else (none, true)
    | none =>
      if item.description ≠ [] then
        (some { item with fulltext := some item.description }, true)
      else (none, true)

/-- Function `enrich_with_text` (ingest.py): keep exactly the records whose resolved
`fulltext` is non-empty, attaching it. -/
def enrich_with_text (extract : Str → Option Str) (minChars : Int)
    (items : List Article) : List Article :=
  items.filterMap (fun i => (enrichStep extract minChars i).1)

/-- The orchestrator's second sort plus truncation (main.py 80-88), i.e. the
exact list `enrich_with_text` is invoked on.  The sort key evaluates
`x.get("published_at") or datetime.min.replace(tzinfo=datetime.utc)`; the
fallback operand is only evaluated for a record with a falsy
`published_at`, and the `datetime` class has no attribute `utc`, so the sort
raises `AttributeError` as soon as any record lacks a date. -/
def limitedForEnrichment (articles : List Article) (maxArticles : Nat) :
    Except String (List Article) :=
  let deduplicated := (normalize_and_dedupe articles).2
  if deduplicated.all (fun r => r.published_at.isSome) then
    .ok ((sortByDateDesc deduplicated).take maxArticles)
  else
    .error "AttributeError: type object datetime.datetime has no attribute utc"

/-- Function `process_articles` (main.py) up to and including enrichment; summarisation
attaches a summary per record and neither drops nor reorders, so this list
is the pipeline's output. -/
def process_articles (extract : Str → Option Str) (articles : List Article)
    (maxArticles : Nat) (minChars : Int) : Except String (List Article) :=
  (limitedForEnrichment articles maxArticles).map (enrich_with_text extract minChars)

/-! ### Source adapters (ingest.py 37-210)

The network and the external parsers are outside the program: each adapter
model takes the outcome of its transport call as a parameter.  `JVal`
models a decoded JSON value; `PyExc` the exception classes the adapter code
can raise or catch.  An undecodable response body makes
`requests.Response.json()` raise `requests.JSONDecodeError`, a
`RequestException` subclass, so transport and JSON-decode failures are both
the `.error` case of the transport parameter; a *decodable* body of
unexpected shape is an ordinary `JVal`. -/

/-- Exception classes relevant to the adapter bodies. -/
inductive PyExc where
  | requestException
  | attributeError
  | typeError
deriving DecidableEq

/-- A decoded JSON value. -/
inductive JVal where
  | jnull
  | jbool (b : Bool)
  | jnum (n : Int)
  | jstr (s : Str)
  | jarr (elems : List JVal)
  | jobj (fields : List (Str × JVal))

/-- Python truthiness of a JSON value. -/
def jTruthy : JVal → Bool
  | .jnull => false
  | .jbool b => b
  | .jnum n => n != 0
  | .jstr s => !s.isEmpty
  | .jarr l => !l.isEmpty
  | .jobj l => !l.isEmpty

/-- Test whether a JSON value equals a given Python string (the `==`/`!=`
comparison never raises; any non-string value is simply unequal). -/
def jIsStr (v : JVal) (s : Str) : Bool :=
  match v with
  | .jstr t => t == s
  | _ => false

/-- Python `d.get(key, default)`: `AttributeError` when the receiver is not
a dict. -/
def pyGet (v : JVal) (key dflt : JVal) : Except PyExc JVal :=
  match v, key with
  | .jobj fields, .jstr k =>
    .ok (((fields.find? (fun kv => kv.1 == k)).map Prod.snd).getD dflt)
  | _, _ => .error .attributeError

/-- A string-method call (`.strip()`, `.replace(...)`) on a JSON value:
`AttributeError` unless the value is a string. -/
def jAsStr (v : JVal) : Except PyExc Str :=
  match v with
  | .jstr s => .ok s
  | _ => .error .attributeError

/-- Reading a JSON value into a plain string field with no method call
(`"url": article.get("url", "")`).  Python stores a non-string value as-is;
that case never reaches any theorem and is modelled as the empty string. -/
def jFieldStr (v : JVal) : Str :=
  match v with
  | .jstr s => s
  | _ => []

/-- Python iteration (`for x in v`): arrays yield their elements, strings
their characters, dicts their keys; other values raise `TypeError`. -/
def jIter (v : JVal) : Except PyExc (List JVal) :=
  match v with
  | .jarr l => .ok l
  | .jstr s => .ok (s.map (fun c => .jstr [c]))
  | .jobj l => .ok (l.map (fun kv => .jstr kv.1))
  | _ => .error .typeError

/-- Python `s.replace("Z", "+00:00")`. -/
def replaceZ : Str → Str
  | [] => []
  | c :: rest => if c = 'Z' then str "+00:00" ++ replaceZ rest else c :: replaceZ rest

/-- The defensive timestamp parse both JSON adapters use.  A truthy raw
value must be a string, otherwise `.replace` raises an (uncaught)
`AttributeError`; `datetime.fromisoformat` (the oracle `parseIso`, `none`
for `ValueError`) failing is caught and replaced by the fetch time `now`;
a falsy raw value leaves `published_at` as `None`. -/
def parsePublishedAt (parseIso : Str → Option Nat) (now : Nat) (raw : JVal) :
    Except PyExc (Option Nat) :=
  if jTruthy raw then do
    let s ← jAsStr raw
    pure (some ((parseIso (replaceZ s)).getD now))
  else
    pure none

/-- The per-article loop body of `fetch_newsapi_articles`. -/
def newsapiArticle (parseIso : Str → Option Nat) (now : Nat) (a : JVal) :
    Except PyExc Article := do
  let published_at ← parsePublishedAt parseIso now (← pyGet a (.jstr (str "publishedAt")) .jnull)
  let title ← jAsStr (← pyGet a (.jstr (str "title")) (.jstr []))
  let url := jFieldStr (← pyGet a (.jstr (str "url")) (.jstr []))
  let sourceName ← pyGet (← pyGet a (.jstr (str "source")) (.jobj []))
    (.jstr (str "name")) (.jstr (str "Unknown"))
  let description ← jAsStr (← pyGet a (.jstr (str "description")) (.jstr []))
  let content ← jAsStr (← pyGet a (.jstr (str "content")) (.jstr []))
  pure { title := pyStrip title, url := url, source := jFieldStr sourceName,
         published_at := published_at, description := pyStrip description,
         content := pyStrip content, source_type := str "newsapi" }

/-- Function `fetch_newsapi_articles` (ingest.py 94-160).  `apiKey` is
`CFG.NEWSAPI_KEY`; `transport` is the outcome of
`requests.get(...)`, `raise_for_status()` and `.json()` together (`.error`
for any `RequestException`).  Only `RequestException` is caught by the
adapter; any other exception escapes it. -/
def fetch_newsapi_articles (parseIso : Str → Option Nat) (now : Nat)
    (apiKey : Str) (transport : Except Unit JVal) : Except PyExc (List Article) :=
  if apiKey = [] then .ok []
  else
    let body : Except PyExc (List Article) := do
      let data ← match transport with
        | .ok v => pure v
        | .error _ => throw PyExc.requestException
      let status ← pyGet data (.jstr (str "status")) .jnull
      if !jIsStr status (str "ok") then
        pure []
      else do
        let arts ← pyGet data (.jstr (str "articles")) (.jarr [])
        let elems ← jIter arts
        elems.mapM (newsapiArticle parseIso now)
    match body with
    | .error .requestException => .ok []
    | r => r

/-- The per-document loop body of `fetch_nyt_articles`. -/
def nytArticle (parseIso : Str → Option Nat) (now : Nat) (doc : JVal) :
    Except PyExc Article := do
  let published_at ← parsePublishedAt parseIso now (← pyGet doc (.jstr (str "pub_date")) .jnull)
  let headline ← pyGet doc (.jstr (str "headline")) (.jobj [])
  let title ← jAsStr (← pyGet headline (.jstr (str "main")) (.jstr []))
  let url := jFieldStr (← pyGet doc (.jstr (str "web_url")) (.jstr []))
  let description ← jAsStr (← pyGet doc (.jstr (str "abstract")) (.jstr []))
  let content ← jAsStr (← pyGet doc (.jstr (str "lead_paragraph")) (.jstr []))
  pure { title := pyStrip title, url := url, source := str "The New York Times",
         published_at := published_at, description := pyStrip description,
         content := pyStrip content, source_type := str "nyt_api" }

/-- Function `fetch_nyt_articles` (ingest.py 37-92), with the same
conventions as `fetch_newsapi_articles` (no status check in this one). -/
def fetch_nyt_articles (parseIso : Str → Option Nat) (now : Nat)
    (apiKey : Str) (transport : Except Unit JVal) : Except PyExc (List Article) :=
  if apiKey = [] then .ok []
  else
    let body : Except PyExc (List Article) := do
      let data ← match transport with
        | .ok v => pure v
        | .error _ => throw PyExc.requestException
      let resp ← pyGet data (.jstr (str "response")) (.jobj [])
      let docs ← pyGet resp (.jstr (str "docs")) (.jarr [])
      let elems ← jIter docs
      elems.mapM (nytArticle parseIso now)
    match body with
    | .error .requestException => .ok []
    | r => r

/-- A parsed feed entry as `feedparser` hands it over (`none` models a
missing attribute; a present `*_parsed` time-struct is always truthy). -/
structure RssEntry where
  title : Option Str
  link : Option Str
  summary : Option Str
  published_parsed : Option Nat
  updated_parsed : Option Nat
deriving DecidableEq

/-- A parsed feed: `feed.feed.get('title', ...)` and `feed.entries`. -/
structure RssFeed where
  feedTitle : Option Str
  entries : List RssEntry
deriving DecidableEq

/-- The per-entry loop body of `fetch_rss`.  `stripHtml` models
BeautifulSoup's markup-stripping `get_text()`. -/
def rssArticle (stripHtml : Str → Str) (now : Nat) (feedTitle : Option Str)
    (e : RssEntry) : Article :=
  { title := pyStrip (e.title.getD [])
  , url := e.link.getD []
  , source := feedTitle.getD (str "Unknown RSS")
  , published_at := some ((e.published_parsed.orElse (fun _ => e.updated_parsed)).getD now)
  , description := match e.summary with | some s => pyStrip (stripHtml s) | none => []
  , content := []
  , source_type := str "rss" }

/-- Function `fetch_rss` (ingest.py 162-210).  `feedOracle` models
`feedparser.parse` (`.error` for any exception it might raise).  The
per-feed `except Exception: continue` keeps a feed's failure local, so the
adapter itself is total: a failed feed contributes nothing while the
other feeds' articles are kept. -/
def fetch_rss (stripHtml : Str → Str) (now : Nat)
    (feedOracle : Str → Except Unit RssFeed) (urls : List Str) : List Article :=
  (urls.map (fun u =>
    match feedOracle u with
    | .ok feed => feed.entries.map (rssArticle stripHtml now feed.feedTitle)
    | .error _ => [])).flatten

/-! ### Definitions written from the spec's words, for comparison -/

/-- Modelled from the spec: the vocabulary as a set of *distinct* keywords
("each matched keyword counted once"), i.e. the code's list with its
duplicate `"trade"` entry removed. -/
def distinctKeywords : List Str :=
  [str "politics", str "election", str "government", str "president",
   str "congress", str "senate",
   str "world", str "global", str "international", str "foreign",
   str "diplomacy", str "trade",
   str "technology", str "science", str "innovation", str "AI",
   str "artificial intelligence",
   str "climate", str "economy", str "business", str "finance",
   str "market",
   str "breaking", str "urgent", str "crisis", str "emergency",
   str "important", str "major"]

/-- Modelled from the spec: the count of distinct vocabulary keywords
occurring as substrings of the lowercased title. -/
def distinctMatchedCount (title : Str) : Nat :=
  distinctKeywords.countP (fun k => decide (pyIn k (pyLower title)))

/-- The code's vocabulary with the (never-matching) entry `"AI"` removed,
used to state claim C10. -/
def keywordsWithoutAI : List Str :=
  [str "politics", str "election", str "government", str "president",
   str "congress", str "senate",
   str "world", str "global", str "international", str "foreign",
   str "diplomacy", str "trade",
   str "technology", str "science", str "innovation",
   str "artificial intelligence",
   str "climate", str "economy", str "business", str "finance",
   str "market", str "trade",
   str "breaking", str "urgent", str "crisis", str "emergency",
   str "important", str "major"]

/-- A record with its `priority_score` field blanked, used to compare list
contents modulo the dedup stage's in-place score mutation. -/
def clearScore (r : Article) : Article := { r with priority_score := none }

/-- Vocabulary segment before the first `"trade"`. -/
def kwSeg1 : List Str :=
  [str "politics", str "election", str "government", str "president",
   str "congress", str "senate",
   str "world", str "global", str "international", str "foreign",
   str "diplomacy"]

/-- Vocabulary segment between the first `"trade"` and `"AI"`. -/
def kwSeg2 : List Str := [str "technology", str "science", str "innovation"]

/-- Vocabulary segment between `"AI"` and the second `"trade"`. -/
def kwSeg3 : List Str :=
  [str "artificial intelligence", str "climate", str "economy",
   str "business", str "finance", str "market"]

/-- Vocabulary segment after the second `"trade"`. -/
def kwSeg4 : List Str :=
  [str "breaking", str "urgent", str "crisis", str "emergency",
   str "important", str "major"]

instance {ε α : Type} [DecidableEq ε] [DecidableEq α] : DecidableEq (Except ε α)
  | .error a, .error b => decidable_of_iff (a = b) (by simp)
  | .error _, .ok _ => isFalse (by simp)
  | .ok _, .error _ => isFalse (by simp)
  | .ok a, .ok b => decidable_of_iff (a = b) (by simp)

/-! ### Concrete fixtures for witnesses, counterexamples and evaluations -/

/-- Build an adapter-shaped record. -/
def mkArticle (title url : String) (pub : Option Nat) (desc content : String) :
    Article :=
  { title := str title, url := str url, source := str "Feed",
    published_at := pub, description := str desc, content := str content,
    source_type := str "rss" }

/-- Ten distinct records: `rec1` is the oldest but carries four priority
keywords; the other nine are keyword-free and newer. -/
def rec1 : Article := mkArticle "politics world economy crisis" "https://example.com/r1" (some 1) "" ""

def rec2 : Article := mkArticle "story two" "https://example.com/r2" (some 2) "" ""

def rec3 : Article := mkArticle "story three" "https://example.com/r3" (some 3) "" ""

def rec4 : Article := mkArticle "story four" "https://example.com/r4" (some 4) "" ""

def rec5 : Article := mkArticle "story five" "https://example.com/r5" (some 5) "" ""

def rec6 : Article := mkArticle "story six" "https://example.com/r6" (some 6) "" ""

def rec7 : Article := mkArticle "story seven" "https://example.com/r7" (some 7) "" ""

def rec8 : Article := mkArticle "story eight" "https://example.com/r8" (some 8) "" ""

def rec9 : Article := mkArticle "story nine" "https://example.com/r9" (some 9) "" ""

def rec10 : Article := mkArticle "story ten" "https://example.com/r10" (some 10) "" ""

def tenRecords : List Article :=
  [rec1, rec2, rec3, rec4, rec5, rec6, rec7, rec8, rec9, rec10]

/-- A record whose `published_at` is missing. -/
def undatedArticle : Article := mkArticle "no date here" "https://example.com/u" none "" ""

/-- End-to-end record published at `T`: canonical URL `https://example.com/a`,
1000 characters of content. -/
def articleEarly (T : Nat) : Article :=
  { title := str "Alpha headline", url := str "https://example.com/a?utm=1",
    source := str "Feed", published_at := some T, description := [],
    content := List.replicate 1000 'x', source_type := str "newsapi" }

/-- End-to-end record published one hour later, same canonical URL,
different title, 1000 characters of content. -/
def articleLate (T : Nat) : Article :=
  { title := str "Beta headline", url := str "https://example.com/a?utm=2",
    source := str "Feed", published_at := some (T + 3600), description := [],
    content := List.replicate 1000 'y', source_type := str "newsapi" }

/-- A record with exactly 600 characters of content. -/
def mediumArticle : Article :=
  { title := str "Medium item", url := str "https://example.com/m",
    source := str "Feed", published_at := some 5, description := [],
    content := List.replicate 600 'z', source_type := str "newsapi" }

/-- A record with empty content and description. -/
def bareArticle : Article := mkArticle "bare item" "https://example.com/bare" (some 1) "" ""

/-- A record with six characters of content. -/
def shortArticle : Article := mkArticle "short item" "https://example.com/s" (some 2) "" "abcdef"

/-- A syntactically valid JSON payload of unexpected shape: the entry of
`articles` is a number, not an object. -/
def malformedPayload : JVal :=
  JVal.jobj [(str "status", .jstr (str "ok")), (str "articles", .jarr [.jnum 5])]

/-- A NewsAPI payload whose status is not `"ok"`. -/
def errorStatusPayload : JVal :=
  JVal.jobj [(str "status", .jstr (str "error")), (str "message", .jstr (str "bad key"))]

/-- A NYT payload of unexpected shape: the entry of `docs` is a number. -/
def malformedNytPayload : JVal :=
  JVal.jobj [(str "response", .jobj [(str "docs", .jarr [.jnum 7])])]

/-- A sample feed entry, feed and oracle failing on every URL but one. -/
def sampleEntry : RssEntry :=
  { title := some (str "Feed story"), link := some (str "https://example.com/f"),
    summary := none, published_parsed := some 9, updated_parsed := none }

def sampleFeed : RssFeed := { feedTitle := some (str "Feed"), entries := [sampleEntry] }

def sampleFeedOracle : Str → Except Unit RssFeed := fun u =>
  if u = str "https://good.example/rss" then .ok sampleFeed else .error ()

/-- A path on which `splitParams` is the identity: either no `;` at all, or
a `/` with no `;` in the last segment.  Every `splitParams` output has this
shape, which is what makes `normalize_url` stable on its own outputs. -/
def goodPath (q : Str) : Prop := (';' ∉ q) ∨ ('/' ∈ q ∧ ';' ∉ lastSeg q)

/-! ## Helper lemmas about the enricher -/

theorem enrichStep_some_fulltext (extract : Str → Option Str) (minChars : Int)
    (item r : Article) (h : (enrichStep extract minChars item).1 = some r) :
    ∃ s, r.fulltext = some s ∧ s ≠ [] := by
  unfold enrichStep at h
  by_cases h1 : item.content ≠ [] ∧ minChars < (item.content.length : Int)
  · rw [if_pos h1] at h
    obtain rfl : ({ item with fulltext := some item.content } : Article) = r :=
      Option.some.inj h
    exact ⟨item.content, rfl, h1.1⟩
  · rw [if_neg h1] at h
    by_cases h2 : item.description ≠ [] ∧ minChars < (item.description.length : Int)
    · rw [if_pos h2] at h
      obtain rfl : ({ item with fulltext := some item.description } : Article) = r :=
        Option.some.inj h
      exact ⟨item.description, rfl, h2.1⟩
    · rw [if_neg h2] at h
      cases he : extract item.url with
      | some t =>
        rw [he] at h
        dsimp only at h
        by_cases h3 : t ≠ [] ∧ minChars < (t.length : Int)
        · rw [if_pos h3] at h
          obtain rfl : ({ item with fulltext := some t } : Article) = r :=
            Option.some.inj h
          exact ⟨t, rfl, h3.1⟩
        · rw [if_neg h3] at h
          by_cases h4 : item.description ≠ []
          · rw [if_pos h4] at h
            obtain rfl : ({ item with fulltext := some item.description } : Article) = r :=
              Option.some.inj h
            exact ⟨item.description, rfl, h4⟩
          · rw [if_neg h4] at h
            exact absurd h (by simp)
      | none =>
        rw [he] at h
        dsimp only at h
        by_cases h4 : item.description ≠ []
        · rw [if_pos h4] at h
          obtain rfl : ({ item with fulltext := some item.description } : Article) = r :=
            Option.some.inj h
          exact ⟨item.description, rfl, h4⟩
        · rw [if_neg h4] at h
          exact absurd h (by simp)

theorem enrichStep_drops_empty (extract : Str → Option Str) (minChars : Int)
    (item : Article) (hc : item.content = []) (hd : item.description = [])
    (he : extract item.url = none ∨ extract item.url = some []) :
    (enrichStep extract minChars item).1 = none := by
  unfold enrichStep
  rw [if_neg (by simp [hc]), if_neg (by simp [hd])]
  rcases he with he | he
  · rw [he]
    dsimp only
    rw [if_neg (by simp [hd])]
  · rw [he]
    dsimp only
    rw [if_neg (by simp), if_neg (by simp [hd])]

/-! ## Helper lemmas about characters, stripping and lowercasing -/

theorem char_eq_of_toNat {c d : Char} (h : c.toNat = d.toNat) : c = d :=
  Char.ext (UInt32.ext h)

theorem isUpper_iff_toNat (c : Char) :
    c.isUpper = true ↔ (65 ≤ c.toNat ∧ c.toNat ≤ 90) := by
  simp only [Char.isUpper, Bool.and_eq_true, decide_eq_true_eq, ge_iff_le]
  exact Iff.rfl

theorem isLower_iff_toNat (c : Char) :
    c.isLower = true ↔ (97 ≤ c.toNat ∧ c.toNat ≤ 122) := by
  simp only [Char.isLower, Bool.and_eq_true, decide_eq_true_eq, ge_iff_le]
  exact Iff.rfl

theorem isDigit_iff_toNat (c : Char) :
    c.isDigit = true ↔ (48 ≤ c.toNat ∧ c.toNat ≤ 57) := by
  simp only [Char.isDigit, Bool.and_eq_true, decide_eq_true_eq, ge_iff_le]
  exact Iff.rfl

theorem isAlpha_iff_toNat (c : Char) :
    c.isAlpha = true ↔
      (65 ≤ c.toNat ∧ c.toNat ≤ 90) ∨ (97 ≤ c.toNat ∧ c.toNat ≤ 122) := by
  simp only [Char.isAlpha, Bool.or_eq_true, isUpper_iff_toNat, isLower_iff_toNat]

/-! ## Helper lemmas about lowercasing and the keyword vocabulary -/

theorem toNat_toLower (c : Char) :
    (Char.toLower c).toNat =
      if c.toNat ≥ 65 ∧ c.toNat ≤ 90 then c.toNat + 32 else c.toNat := by
  simp only [Char.toLower]
  by_cases h : c.toNat ≥ 65 ∧ c.toNat ≤ 90
  · rw [if_pos h, if_pos h]
    have hv : (c.toNat + 32).isValidChar := Or.inl (by omega)
    simp only [Char.ofNat]
    rw [dif_pos hv]
    rfl
  · rw [if_neg h, if_neg h]

theorem toLower_not_upper (c : Char) :
    ¬(65 ≤ (Char.toLower c).toNat ∧ (Char.toLower c).toNat ≤ 90) := by
  rw [toNat_toLower]
  by_cases h : c.toNat ≥ 65 ∧ c.toNat ≤ 90
  · rw [if_pos h]
    omega
  · rw [if_neg h]
    omega

theorem toLower_toLower (c : Char) :
    Char.toLower (Char.toLower c) = Char.toLower c := by
  have h := toLower_not_upper c
  generalize Char.toLower c = d at h ⊢
  simp only [Char.toLower]
  rw [if_neg (fun hc => h ⟨hc.1, hc.2⟩)]

theorem toLower_ne_A (c : Char) : Char.toLower c ≠ 'A' := by
  intro h
  have hup := toLower_not_upper c
  rw [h] at hup
  exact hup (by decide)

theorem not_A_mem_pyLower (t : Str) : 'A' ∉ pyLower t := by
  intro h
  obtain ⟨c, -, hc⟩ := List.mem_map.mp h
  exact toLower_ne_A c hc

theorem ai_never_matches (t : Str) : ¬ pyIn (str "AI") (pyLower t) := by
  intro h
  exact not_A_mem_pyLower t
    ((show str "AI" <:+: pyLower t from h).subset (by decide))

theorem priorityKeywords_decomp :
    priorityKeywords =
      kwSeg1 ++ str "trade" :: (kwSeg2 ++ str "AI" :: (kwSeg3 ++ str "trade" :: kwSeg4)) :=
  rfl

theorem distinctKeywords_decomp :
    distinctKeywords =
      kwSeg1 ++ str "trade" :: (kwSeg2 ++ str "AI" :: (kwSeg3 ++ kwSeg4)) :=
  rfl

theorem keywordsWithoutAI_decomp :
    keywordsWithoutAI =
      kwSeg1 ++ str "trade" :: (kwSeg2 ++ (kwSeg3 ++ str "trade" :: kwSeg4)) :=
  rfl

theorem countP_priorityKeywords (p : Str → Bool) :
    priorityKeywords.countP p =
      distinctKeywords.countP p + (if p (str "trade") = true then 1 else 0) := by
  rw [priorityKeywords_decomp, distinctKeywords_decomp]
  simp only [List.countP_append, List.countP_cons]
  omega

theorem countP_keywordsWithoutAI (p : Str → Bool) (hAI : p (str "AI") = false) :
    priorityKeywords.countP p = keywordsWithoutAI.countP p := by
  rw [priorityKeywords_decomp, keywordsWithoutAI_decomp]
  simp only [List.countP_append, List.countP_cons, hAI, Bool.false_eq_true, if_false]
  omega

/-! ## Helper lemmas for canonicalizer idempotence (C5) -/

theorem dropWhile_head_false {α : Type} (p : α → Bool) :
    ∀ (l : List α) {a : α} {t : List α}, l.dropWhile p = a :: t → p a = false := by
  intro l
  induction l with
  | nil => intro a t h; simp at h
  | cons x xs ih =>
    intro a t h
    rw [List.dropWhile_cons] at h
    by_cases hx : p x = true
    · rw [if_pos hx] at h
      exact ih h
    · rw [if_neg hx] at h
      cases h
      simpa using hx

theorem dropWhile_rdropWhile (p : Char → Bool) (s : Str) :
    (List.rdropWhile p (s.dropWhile p)).dropWhile p =
      List.rdropWhile p (s.dropWhile p) := by
  cases hB : List.rdropWhile p (s.dropWhile p) with
  | nil => rfl
  | cons b bs =>
    have hpre : b :: bs <+: s.dropWhile p := hB ▸ List.rdropWhile_prefix p _
    obtain ⟨t, ht⟩ := hpre
    have hhead : p b = false :=
      dropWhile_head_false p s (by rw [← ht]; rfl)
    rw [List.dropWhile_cons, if_neg (by simp [hhead])]

theorem pyStrip_eq_rdropWhile (s : Str) :
    pyStrip s = List.rdropWhile isPySpace (s.dropWhile isPySpace) := rfl

theorem pyStrip_idem (s : Str) : pyStrip (pyStrip s) = pyStrip s := by
  rw [pyStrip_eq_rdropWhile (pyStrip s), pyStrip_eq_rdropWhile s,
      dropWhile_rdropWhile, List.rdropWhile_idempotent]

theorem mem_pyStrip {c : Char} {s : Str} (h : c ∈ pyStrip s) : c ∈ s := by
  rw [pyStrip_eq_rdropWhile] at h
  have h1 : c ∈ s.dropWhile isPySpace :=
    (List.rdropWhile_prefix isPySpace _).subset h
  exact (List.dropWhile_sublist isPySpace).subset h1

theorem toLower_eq_self_of_not_upper {c : Char}
    (h : ¬(65 ≤ c.toNat ∧ c.toNat ≤ 90)) : Char.toLower c = c := by
  simp only [Char.toLower]
  rw [if_neg (fun hc => h ⟨hc.1, hc.2⟩)]

theorem mem_pyLower_not_upper {c : Char} {s : Str} (h : c ∈ pyLower s) :
    ¬(65 ≤ c.toNat ∧ c.toNat ≤ 90) := by
  obtain ⟨d, -, rfl⟩ := List.mem_map.mp h
  exact toLower_not_upper d

theorem pyLower_eq_self {s : Str}
    (h : ∀ c ∈ s, ¬(65 ≤ c.toNat ∧ c.toNat ≤ 90)) : pyLower s = s := by
  unfold pyLower
  rw [List.map_congr_left (fun c hc => toLower_eq_self_of_not_upper (h c hc))]
  simp

theorem normalize_title_fixes (x : Str) :
    normalize_title (pyStrip (pyLower x)) = pyStrip (pyLower x) := by
  have hnoup : ∀ c ∈ pyStrip (pyLower x), ¬(65 ≤ c.toNat ∧ c.toNat ≤ 90) :=
    fun c hc => mem_pyLower_not_upper (mem_pyStrip hc)
  have hfind : knownSuffixes.find?
      (fun s => s.isSuffixOf (pyStrip (pyLower x))) = none := by
    rw [List.find?_eq_none]
    intro s hs hp
    have hsuf : s <:+ pyStrip (pyLower x) := List.isSuffixOf_iff_suffix.mp hp
    have hup : ∃ c ∈ s, 65 ≤ c.toNat ∧ c.toNat ≤ 90 := by
      fin_cases hs <;> decide
    obtain ⟨c, hcs, hcup⟩ := hup
    exact hnoup c (hsuf.subset hcs) hcup
  unfold normalize_title
  rw [hfind]
  show pyStrip (pyLower (pyStrip (pyLower x))) = pyStrip (pyLower x)
  rw [pyLower_eq_self hnoup, pyStrip_idem]

theorem normalize_title_idem (t : Str) :
    normalize_title (normalize_title t) = normalize_title t := by
  have h : normalize_title t = pyStrip (pyLower (
      match knownSuffixes.find? (fun s => s.isSuffixOf t) with
      | some s => t.take (t.length - s.length)
      | none => t)) := rfl
  rw [h]
  exact normalize_title_fixes _

theorem isAlpha_toLower {c : Char} (h : c.isAlpha = true) :
    (Char.toLower c).isAlpha = true := by
  rw [isAlpha_iff_toNat] at h ⊢
  rw [toNat_toLower]
  by_cases hcase : c.toNat ≥ 65 ∧ c.toNat ≤ 90
  · rw [if_pos hcase]
    omega
  · rw [if_neg hcase]
    omega

theorem isSchemeChar_toLower {c : Char} (h : isSchemeChar c = true) :
    isSchemeChar (Char.toLower c) = true := by
  unfold isSchemeChar at h ⊢
  simp only [Bool.or_eq_true, beq_iff_eq] at h ⊢
  rcases h with ((((ha | hd) | hp) | hm) | hdot)
  · exact Or.inl (Or.inl (Or.inl (Or.inl (isAlpha_toLower ha))))
  · have hfix : Char.toLower c = c := by
      apply toLower_eq_self_of_not_upper
      rw [isDigit_iff_toNat] at hd
      omega
    rw [hfix]
    exact Or.inl (Or.inl (Or.inl (Or.inr hd)))
  · subst hp
    decide
  · subst hm
    decide
  · subst hdot
    decide

theorem isSchemeChar_not_colon {c : Char} (h : isSchemeChar c = true) :
    (c == ':') = false := by
  by_cases hc : c = ':'
  · subst hc
    exact absurd h (by decide)
  · simp [hc]

theorem alpha_not_C0 {c : Char} (h : c.isAlpha = true) : isC0OrSpace c = false := by
  rw [isAlpha_iff_toNat] at h
  unfold isC0OrSpace
  simp only [decide_eq_false_iff_not]
  show ¬ (c.toNat ≤ 0x20)
  omega

theorem schemeChar_not_unsafe {c : Char} (h : isSchemeChar c = true) :
    (c == '\t' || c == '\r' || c == '\n') = false := by
  by_cases h1 : c = '\t'
  · subst h1
    exact absurd h (by decide)
  by_cases h2 : c = '\r'
  · subst h2
    exact absurd h (by decide)
  by_cases h3 : c = '\n'
  · subst h3
    exact absurd h (by decide)
  simp [h1, h2, h3]

theorem whatwgClean_eq_self {v : Str}
    (hhead : ∀ a t, v = a :: t → isC0OrSpace a = false)
    (htabfree : ∀ c ∈ v, (c == '\t' || c == '\r' || c == '\n') = false) :
    whatwgClean v = v := by
  unfold whatwgClean
  have h1 : v.dropWhile isC0OrSpace = v := by
    cases v with
    | nil => rfl
    | cons a t => rw [List.dropWhile_cons, if_neg (by simp [hhead a t rfl])]
  rw [h1]
  exact List.filter_eq_self.mpr (fun c hc => by simp [htabfree c hc])

theorem findIdx_colon (s zs : Str) (h : ∀ c ∈ s, (c == ':') = false) :
    (s ++ ':' :: zs).findIdx? (· == ':') = some s.length := by
  have h1 : s.findIdx? (· == ':') = none := List.findIdx?_eq_none_iff.mpr h
  have h2 : (':' :: zs).findIdx? (· == ':') = some 0 := by
    simp [List.findIdx?_cons]
  rw [List.findIdx?_append, h1, h2]
  simp [Option.or]

theorem splitScheme_reconstruct (s zs : Str) (hne : s ≠ [])
    (hall : s.all isSchemeChar = true) (hhead : (s.headD ' ').isAlpha = true)
    (hlow : s.map Char.toLower = s) :
    splitScheme (s ++ ':' :: zs) = (s, zs) := by
  have hnc : ∀ c ∈ s, (c == ':') = false := fun c hc =>
    isSchemeChar_not_colon (List.all_eq_true.mp hall c hc)
  have htake : (s ++ ':' :: zs).take s.length = s := List.take_left s _
  unfold splitScheme
  rw [findIdx_colon s zs hnc]
  dsimp only
  rw [if_pos ?_]
  · rw [htake, hlow]
    have hsplit : s ++ ':' :: zs = (s ++ [':']) ++ zs := by simp
    have hlen : s.length + 1 = (s ++ [':']).length := by simp
    rw [hsplit, hlen, List.drop_left]
  · refine ⟨?_, ?_, ?_⟩
    · cases s with
      | nil => exact absurd rfl hne
      | cons a as => simp
    · rw [htake]
      exact hall
    · cases s with
      | nil => exact absurd rfl hne
      | cons a as => exact hhead

theorem takeWhile_all_eq_self {α : Type} {q : α → Bool} :
    ∀ {l : List α}, (∀ c ∈ l, q c = true) → l.takeWhile q = l := by
  intro l
  induction l with
  | nil => intro _; rfl
  | cons a as ih =>
    intro h
    rw [List.takeWhile_cons, if_pos (h a (List.mem_cons_self a as))]
    rw [ih (fun c hc => h c (List.mem_cons_of_mem a hc))]

theorem takeWhile_append_all {α : Type} {q : α → Bool} {a : List α} (b : List α)
    (h : ∀ c ∈ a, q c = true) :
    (a ++ b).takeWhile q = a ++ b.takeWhile q := by
  induction a with
  | nil => rfl
  | cons x xs ih =>
    rw [List.cons_append, List.takeWhile_cons,
        if_pos (h x (List.mem_cons_self x xs)), List.cons_append,
        ih (fun c hc => h c (List.mem_cons_of_mem x hc))]

theorem dropWhile_append_all {α : Type} {q : α → Bool} {a : List α} (b : List α)
    (h : ∀ c ∈ a, q c = true) :
    (a ++ b).dropWhile q = b.dropWhile q := by
  induction a with
  | nil => rfl
  | cons x xs ih =>
    rw [List.cons_append, List.dropWhile_cons,
        if_pos (h x (List.mem_cons_self x xs)),
        ih (fun c hc => h c (List.mem_cons_of_mem x hc))]

theorem takeWhile_append_stop {α : Type} {q : α → Bool} {a : List α} (b : List α)
    (h : ∃ c ∈ a, q c = false) :
    (a ++ b).takeWhile q = a.takeWhile q := by
  induction a with
  | nil =>
    obtain ⟨c, hc, -⟩ := h
    simp at hc
  | cons x xs ih =>
    rw [List.cons_append, List.takeWhile_cons, List.takeWhile_cons]
    by_cases hx : q x = true
    · rw [if_pos hx, if_pos hx]
      obtain ⟨c, hc, hcq⟩ := h
      rcases List.mem_cons.mp hc with rfl | hc2
      · rw [hx] at hcq
        cases hcq
      · rw [ih ⟨c, hc2, hcq⟩]
    · rw [if_neg hx, if_neg hx]

theorem lastSeg_no_slash (p : Str) : '/' ∉ lastSeg p := by
  intro h
  rw [lastSeg, List.mem_reverse] at h
  have := List.mem_takeWhile_imp h
  simp at this

theorem reverse_lastSeg (p : Str) :
    (lastSeg p).reverse = p.reverse.takeWhile (· ≠ '/') := by
  rw [lastSeg, List.reverse_reverse]

theorem lastSeg_suffix (p : Str) : lastSeg p <:+ p := by
  rw [← List.reverse_prefix, reverse_lastSeg]
  exact List.takeWhile_prefix _

theorem lastSeg_decomp (p : Str) :
    p.take (p.length - (lastSeg p).length) ++ lastSeg p = p ∧
    p.reverse.dropWhile (· ≠ '/') = (p.take (p.length - (lastSeg p).length)).reverse := by
  obtain ⟨st, hst⟩ := lastSeg_suffix p
  have hlen : st.length + (lastSeg p).length = p.length := by
    conv_rhs => rw [← hst]
    rw [List.length_append]
  have hidx : p.length - (lastSeg p).length = st.length := by omega
  have htake : p.take (p.length - (lastSeg p).length) = st := by
    rw [hidx, ← hst, List.take_left]
  refine ⟨by rw [htake, hst], ?_⟩
  rw [htake]
  have h1 : p.reverse.takeWhile (· ≠ '/') ++ p.reverse.dropWhile (· ≠ '/') = p.reverse :=
    List.takeWhile_append_dropWhile _ _
  rw [← reverse_lastSeg] at h1
  have hrev : p.reverse = (lastSeg p).reverse ++ st.reverse := by
    conv_lhs => rw [← hst]
    rw [List.reverse_append]
  conv at h1 => rhs; rw [hrev]
  exact List.append_cancel_left h1

theorem lastSeg_append_no_slash {a b : Str} (hb : ∀ c ∈ b, c ≠ '/')
    (ha : ∃ r, a.reverse = '/' :: r) :
    lastSeg (a ++ b) = b := by
  obtain ⟨r, hr⟩ := ha
  rw [lastSeg, List.reverse_append, hr]
  rw [takeWhile_append_all ('/' :: r)
    (fun c hc => by simp [hb c (List.mem_reverse.mp hc)])]
  rw [List.takeWhile_cons, if_neg (by simp)]
  simp

theorem lastSeg_append_slash {a b : Str} (hb : '/' ∈ b) :
    lastSeg (a ++ b) = lastSeg b := by
  rw [lastSeg, lastSeg, List.reverse_append]
  rw [takeWhile_append_stop a.reverse ⟨'/', List.mem_reverse.mpr hb, by simp⟩]

theorem mem_splitParams {c : Char} {q : Str} (h : c ∈ splitParams q) : c ∈ q := by
  unfold splitParams at h
  by_cases hs : '/' ∈ q
  · rw [if_pos hs] at h
    dsimp only at h
    by_cases hseg : ';' ∈ lastSeg q
    · rw [if_pos hseg] at h
      rcases List.mem_append.mp h with h1 | h1
      · exact List.take_subset _ _ h1
      · exact (lastSeg_suffix q).subset ((List.takeWhile_sublist _).subset h1)
    · rw [if_neg hseg] at h
      exact h
  · rw [if_neg hs] at h
    exact (List.takeWhile_sublist _).subset h

theorem mem_paramSplitGuarded {c : Char} {s q : Str}
    (h : c ∈ paramSplitGuarded s q) : c ∈ q := by
  unfold paramSplitGuarded at h
  by_cases hg : s ∈ usesParams ∧ ';' ∈ q
  · rw [if_pos hg] at h
    exact mem_splitParams h
  · rw [if_neg hg] at h
    exact h

theorem splitParams_eq_of_goodPath {q : Str} (h : goodPath q) (hq : ';' ∈ q) :
    splitParams q = q := by
  rcases h with h | ⟨hs, hseg⟩
  · exact absurd hq h
  · unfold splitParams
    rw [if_pos hs]
    dsimp only
    rw [if_neg hseg]

theorem paramSplitGuarded_eq_of_goodPath {s q : Str} (h : goodPath q) :
    paramSplitGuarded s q = q := by
  unfold paramSplitGuarded
  by_cases hg : s ∈ usesParams ∧ ';' ∈ q
  · rw [if_pos hg]
    exact splitParams_eq_of_goodPath h hg.2
  · rw [if_neg hg]

theorem goodPath_splitParams (q : Str) : goodPath (splitParams q) := by
  unfold splitParams
  by_cases hs : '/' ∈ q
  · rw [if_pos hs]
    dsimp only
    by_cases hseg : ';' ∈ lastSeg q
    · rw [if_pos hseg]
      right
      obtain ⟨hdecomp, hdrop⟩ := lastSeg_decomp q
      have hslash_st : '/' ∈ q.take (q.length - (lastSeg q).length) := by
        have hmem : '/' ∈ q.take (q.length - (lastSeg q).length) ++ lastSeg q := by
          rw [hdecomp]
          exact hs
        rcases List.mem_append.mp hmem with h | h
        · exact h
        · exact absurd h (lastSeg_no_slash q)
      have hrevst : ∃ r, (q.take (q.length - (lastSeg q).length)).reverse = '/' :: r := by
        cases hrev : (q.take (q.length - (lastSeg q).length)).reverse with
        | nil =>
          rw [List.reverse_eq_nil_iff] at hrev
          rw [hrev] at hslash_st
          simp at hslash_st
        | cons c r =>
          have hc : (fun x => decide (x ≠ '/')) c = false :=
            dropWhile_head_false _ q.reverse (by rw [hdrop, hrev])
          simp only [decide_eq_false_iff_not, not_not] at hc
          subst hc
          exact ⟨r, rfl⟩
      constructor
      · exact List.mem_append.mpr (Or.inl hslash_st)
      · rw [lastSeg_append_no_slash ?hb hrevst]
        · intro hmem
          have := List.mem_takeWhile_imp hmem
          simp at this
        case hb =>
          intro c hc
          intro hcc
          subst hcc
          exact lastSeg_no_slash q ((List.takeWhile_sublist _).subset hc)
    · rw [if_neg hseg]
      right
      exact ⟨hs, hseg⟩
  · rw [if_neg hs]
    left
    intro hmem
    have := List.mem_takeWhile_imp hmem
    simp at this

theorem goodPath_dropWhile_nd {q : Str} (h : goodPath q) :
    goodPath (q.dropWhile (fun c => !isNetlocDelim c)) := by
  rcases h with h | ⟨hs, hseg⟩
  · left
    intro hm
    exact h ((List.dropWhile_sublist _).subset hm)
  · right
    have hsplit := List.takeWhile_append_dropWhile (fun c => !isNetlocDelim c) q
    have htake_no : ∀ c ∈ q.takeWhile (fun c => !isNetlocDelim c), c ≠ '/' := by
      intro c hc hcc
      have := List.mem_takeWhile_imp hc
      subst hcc
      simp [isNetlocDelim] at this
    have hdw : '/' ∈ q.dropWhile (fun c => !isNetlocDelim c) := by
      have hmem : '/' ∈ q.takeWhile (fun c => !isNetlocDelim c) ++
          q.dropWhile (fun c => !isNetlocDelim c) := by
        rw [hsplit]
        exact hs
      rcases List.mem_append.mp hmem with h1 | h1
      · exact absurd rfl (htake_no _ h1)
      · exact h1
    refine ⟨hdw, ?_⟩
    have heq : lastSeg q = lastSeg (q.dropWhile (fun c => !isNetlocDelim c)) := by
      conv_lhs => rw [← hsplit]
      exact lastSeg_append_slash hdw
    rw [← heq]
    exact hseg

theorem mem_whatwgClean_not_unsafe {c : Char} {u : Str} (h : c ∈ whatwgClean u) :
    (c == '\t' || c == '\r' || c == '\n') = false := by
  unfold whatwgClean at h
  have := List.of_mem_filter h
  simpa using this

theorem mem_whatwgClean_subset {c : Char} {u : Str} (h : c ∈ whatwgClean u) :
    c ∈ u := by
  unfold whatwgClean at h
  exact (List.dropWhile_sublist _).subset (List.mem_of_mem_filter h)

theorem splitScheme_snd_subset {l s rest : Str} (h : splitScheme l = (s, rest)) :
    rest ⊆ l := by
  unfold splitScheme at h
  cases hf : l.findIdx? (· == ':') with
  | none =>
    rw [hf] at h
    cases h
    exact fun _ hc => hc
  | some i =>
    rw [hf] at h
    dsimp only at h
    by_cases hg : 0 < i ∧ (l.take i).all isSchemeChar ∧ (l.headD ' ').isAlpha
    · rw [if_pos hg] at h
      cases h
      exact List.drop_subset _ _
    · rw [if_neg hg] at h
      cases h
      exact fun _ hc => hc

theorem splitScheme_props {l s rest : Str} (h : splitScheme l = (s, rest))
    (hs : s ≠ []) :
    s.all isSchemeChar = true ∧ (s.headD ' ').isAlpha = true ∧
      s.map Char.toLower = s := by
  unfold splitScheme at h
  cases hf : l.findIdx? (· == ':') with
  | none =>
    rw [hf] at h
    cases h
    exact absurd rfl hs
  | some i =>
    rw [hf] at h
    dsimp only at h
    by_cases hg : 0 < i ∧ (l.take i).all isSchemeChar ∧ (l.headD ' ').isAlpha
    · rw [if_pos hg] at h
      cases h
      obtain ⟨hpos, hall, hhead⟩ := hg
      refine ⟨?_, ?_, ?_⟩
      · rw [List.all_eq_true]
        intro c hc
        obtain ⟨d, hd, rfl⟩ := List.mem_map.mp hc
        exact isSchemeChar_toLower (List.all_eq_true.mp hall d hd)
      · cases l with
        | nil =>
          simp at hs
        | cons x xs =>
          obtain ⟨k, rfl⟩ : ∃ k, i = k + 1 := ⟨i - 1, by omega⟩
          rw [List.take_succ_cons, List.map_cons]
          exact isAlpha_toLower hhead
      · rw [List.map_map]
        exact List.map_congr_left (fun c _ => toLower_toLower c)
    · rw [if_neg hg] at h
      cases h
      exact absurd rfl hs

theorem pyUrlparse_ok_inv {u s n p : Str} (h : pyUrlparse u = .ok (s, n, p)) :
    (∃ rest, splitScheme (whatwgClean u) = (s, rest)) ∧
    (∀ c ∈ n, (!isNetlocDelim c) = true) ∧ (∀ c ∈ n, c ∈ whatwgClean u) ∧
    ('#' ∉ p) ∧ ('?' ∉ p) ∧ (∀ c ∈ p, c ∈ whatwgClean u) ∧
    (s ∉ usesParams ∨ goodPath p) := by
  unfold pyUrlparse at h
  dsimp only at h
  obtain ⟨sch, rest, hss⟩ : ∃ sch rest, splitScheme (whatwgClean u) = (sch, rest) :=
    ⟨_, _, rfl⟩
  rw [hss] at h
  dsimp only [splitNetloc] at h
  have hrsub : rest ⊆ whatwgClean u := splitScheme_snd_subset hss
  have main : ∀ rest2 : Str,
      rest2 ⊆ whatwgClean u →
      p = paramSplitGuarded s ((rest2.takeWhile (· ≠ '#')).takeWhile (· ≠ '?')) →
      ('#' ∉ p) ∧ ('?' ∉ p) ∧ (∀ c ∈ p, c ∈ whatwgClean u) ∧
        (s ∉ usesParams ∨ goodPath p) := by
    intro rest2 hr2 hp
    have hpath0sub : ∀ c ∈ (rest2.takeWhile (· ≠ '#')).takeWhile (· ≠ '?'),
        c ∈ rest2 := fun c hc =>
      (List.takeWhile_sublist _).subset ((List.takeWhile_sublist _).subset hc)
    have hpsub : ∀ c ∈ p, c ∈ (rest2.takeWhile (· ≠ '#')).takeWhile (· ≠ '?') := by
      intro c hc
      rw [hp] at hc
      exact mem_paramSplitGuarded hc
    refine ⟨?_, ?_, ?_, ?_⟩
    · intro hmem
      have h1 := hpsub _ hmem
      have h2 := List.mem_takeWhile_imp ((List.takeWhile_sublist (· ≠ '?')).subset h1)
      simp at h2
    · intro hmem
      have h2 := List.mem_takeWhile_imp (hpsub _ hmem)
      simp at h2
    · exact fun c hc => hr2 (hpath0sub c (hpsub c hc))
    · by_cases hu : s ∈ usesParams
      · right
        rw [hp]
        unfold paramSplitGuarded
        by_cases hg : s ∈ usesParams ∧
            ';' ∈ (rest2.takeWhile (· ≠ '#')).takeWhile (· ≠ '?')
        · rw [if_pos hg]
          exact goodPath_splitParams _
        · rw [if_neg hg]
          left
          intro hmem
          exact hg ⟨hu, hmem⟩
      · exact Or.inl hu
  by_cases hsl : rest.take 2 = str "//"
  · rw [if_pos hsl] at h
    by_cases hbb : badBrackets ((rest.drop 2).takeWhile (fun c => !isNetlocDelim c))
    · rw [if_pos hbb] at h
      simp at h
    · rw [if_neg hbb] at h
      try dsimp only at h
      injection h with h2
      injection h2 with ha hb
      injection hb with hb1 hb2
      refine ⟨⟨rest, ha ▸ hss⟩, ?_, ?_, ?_⟩
      · intro c hc
        rw [← hb1] at hc
        simpa using List.mem_takeWhile_imp hc
      · intro c hc
        rw [← hb1] at hc
        exact hrsub (List.drop_subset _ _ ((List.takeWhile_sublist _).subset hc))
      · exact main _ (fun c hc =>
          hrsub (List.drop_subset _ _ ((List.dropWhile_sublist _).subset hc)))
          (ha ▸ hb2.symm)
  · rw [if_neg hsl] at h
    try dsimp only at h
    injection h with h2
    injection h2 with ha hb
    injection hb with hb1 hb2
    refine ⟨⟨rest, ha ▸ hss⟩, ?_, ?_, ?_⟩
    · intro c hc
      rw [← hb1] at hc
      simp at hc
    · intro c hc
      rw [← hb1] at hc
      simp at hc
    · exact main _ hrsub (ha ▸ hb2.symm)

theorem normalize_url_reconstruct (s w : Str) (hne : s ≠ [])
    (hall : s.all isSchemeChar = true) (hhead : (s.headD ' ').isAlpha = true)
    (hlow : s.map Char.toLower = s)
    (hw : ∀ c ∈ w, (c == '\t' || c == '\r' || c == '\n') = false)
    (hw2 : '#' ∉ w) (hw3 : '?' ∉ w)
    (hp : paramSplitGuarded s (w.dropWhile (fun c => !isNetlocDelim c)) =
          w.dropWhile (fun c => !isNetlocDelim c)) :
    normalize_url (s ++ str "://" ++ w) = s ++ str "://" ++ w := by
  have hv : s ++ str "://" ++ w = s ++ ':' :: ('/' :: '/' :: w) := by
    rw [List.append_assoc]
    rfl
  have hcl : whatwgClean (s ++ ':' :: ('/' :: '/' :: w)) =
      s ++ ':' :: ('/' :: '/' :: w) := by
    apply whatwgClean_eq_self
    · intro a t hat
      cases s with
      | nil => exact absurd rfl hne
      | cons x xs =>
        rw [List.cons_append] at hat
        injection hat with h1 h2
        subst h1
        exact alpha_not_C0 (by simpa using hhead)
    · intro c hc
      rcases List.mem_append.mp hc with hcs | hcr
      · exact schemeChar_not_unsafe (List.all_eq_true.mp hall c hcs)
      · rcases List.mem_cons.mp hcr with rfl | hcr
        · decide
        rcases List.mem_cons.mp hcr with rfl | hcr
        · decide
        rcases List.mem_cons.mp hcr with rfl | hcr
        · decide
        exact hw c hcr
  have hsch : splitScheme (s ++ ':' :: ('/' :: '/' :: w)) = (s, '/' :: '/' :: w) :=
    splitScheme_reconstruct s _ hne hall hhead hlow
  rw [hv]
  unfold normalize_url pyUrlparse
  rw [hcl]
  dsimp only
  rw [hsch]
  dsimp only
  rw [if_pos (show (('/' :: '/' :: w).take 2 : Str) = str "//" from rfl)]
  dsimp only [splitNetloc]
  rw [show (('/' :: '/' :: w).drop 2 : Str) = w from rfl]
  by_cases hbb : badBrackets (w.takeWhile (fun c => !isNetlocDelim c))
  · rw [if_pos hbb]
  · rw [if_neg hbb]
    dsimp only
    have hq2 : ∀ c ∈ w.dropWhile (fun c => !isNetlocDelim c), c ∈ w :=
      fun c hc => (List.dropWhile_sublist _).subset hc
    have hpath1 : (w.dropWhile (fun c => !isNetlocDelim c)).takeWhile (· ≠ '#') =
        w.dropWhile (fun c => !isNetlocDelim c) := by
      apply takeWhile_all_eq_self
      intro c hc
      simp only [decide_eq_true_eq]
      intro he
      exact hw2 (he ▸ hq2 c hc)
    have hpath2 : (w.dropWhile (fun c => !isNetlocDelim c)).takeWhile (· ≠ '?') =
        w.dropWhile (fun c => !isNetlocDelim c) := by
      apply takeWhile_all_eq_self
      intro c hc
      simp only [decide_eq_true_eq]
      intro he
      exact hw3 (he ▸ hq2 c hc)
    rw [hpath1, hpath2, hp]
    rw [List.append_assoc (s ++ str "://"), List.takeWhile_append_dropWhile]
    rw [List.append_assoc s (str "://") w]
    rfl

theorem normalize_url_idem_of_scheme {u s n p : Str}
    (h : pyUrlparse u = .ok (s, n, p)) (hs : s ≠ []) :
    normalize_url (normalize_url u) = normalize_url u := by
  have hnu : normalize_url u = s ++ str "://" ++ (n ++ p) := by
    unfold normalize_url
    rw [h]
    simp [List.append_assoc]
  obtain ⟨⟨rest, hss⟩, hnd, hnclean, hp1, hp2, hpclean, hstab⟩ := pyUrlparse_ok_inv h
  obtain ⟨hall, hhead, hlow⟩ := splitScheme_props hss hs
  have hdw : (n ++ p).dropWhile (fun c => !isNetlocDelim c) =
      p.dropWhile (fun c => !isNetlocDelim c) :=
    dropWhile_append_all p hnd
  rw [hnu]
  apply normalize_url_reconstruct s (n ++ p) hs hall hhead hlow
  · intro c hc
    rcases List.mem_append.mp hc with h1 | h1
    · exact mem_whatwgClean_not_unsafe (hnclean c h1)
    · exact mem_whatwgClean_not_unsafe (hpclean c h1)
  · intro hmem
    rcases List.mem_append.mp hmem with h1 | h1
    · have := hnd _ h1
      simp [isNetlocDelim] at this
    · exact hp1 h1
  · intro hmem
    rcases List.mem_append.mp hmem with h1 | h1
    · have := hnd _ h1
      simp [isNetlocDelim] at this
    · exact hp2 h1
  · rw [hdw]
    rcases hstab with hu | hgood
    · unfold paramSplitGuarded
      rw [if_neg (fun hg => hu hg.1)]
    · exact paramSplitGuarded_eq_of_goodPath (goodPath_dropWhile_nd hgood)

/-! ## Claim theorems -/

/-- C2: every record in the output of `enrich_with_text` carries a
non-empty `fulltext` — for every input sequence and every `min_chars` — and
a record with empty `content`, empty `description` and failing (or
nothing-yielding) live extraction is dropped: its presence anywhere in the
input leaves the output exactly the output on the remaining records. -/
theorem enricher_output_always_has_fulltext
    (extract : Str → Option Str) (minChars : Int) (items : List Article) :
    (∀ r ∈ enrich_with_text extract minChars items,
      ∃ s, r.fulltext = some s ∧ s ≠ []) ∧
    (∀ pre post item, item.content = [] → item.description = [] →
      (extract item.url = none ∨ extract item.url = some []) →
      enrich_with_text extract minChars (pre ++ item :: post) =
        enrich_with_text extract minChars pre ++ enrich_with_text extract minChars post) := by
  constructor
  · intro r hr
    obtain ⟨i, -, hi⟩ := List.mem_filterMap.mp hr
    exact enrichStep_some_fulltext extract minChars i r hi
  · intro pre post item hc hd he
    unfold enrich_with_text
    rw [List.filterMap_append, List.filterMap_cons,
        enrichStep_drops_empty extract minChars item hc hd he]

/-- Closed witness for C2 at concrete inputs. -/
theorem enricher_output_always_has_fulltext_witness :
    (∃ s, ({ shortArticle with fulltext := some shortArticle.content } : Article).fulltext
        = some s ∧ s ≠ []) ∧
    enrich_with_text (fun _ => none) 3 [bareArticle] = [] := by
  constructor
  · exact (enricher_output_always_has_fulltext (fun _ => none) 3 [shortArticle]).1
      { shortArticle with fulltext := some shortArticle.content } (by decide)
  · have h := (enricher_output_always_has_fulltext (fun _ => none) 3 []).2
      [] [] bareArticle rfl rfl (Or.inl rfl)
    simpa using h

/-- C4: for a record with 600 characters of `content` and `min_chars = 500`
the first fallback branch fires: the resulting `fulltext` is the `content`
field verbatim and no live extraction is attempted for that record
(attempt flag `false`), whatever the extractor would have returned. -/
theorem content_600_uses_content_without_extraction
    (extract : Str → Option Str) (item : Article)
    (h : item.content.length = 600) :
    enrichStep extract 500 item =
      (some { item with fulltext := some item.content }, false) ∧
    enrich_with_text extract 500 [item] =
      [{ item with fulltext := some item.content }] := by
  have hc : item.content ≠ [] := by
    intro hnil
    rw [hnil] at h
    simp at h
  have hlen : (500 : Int) < (item.content.length : Int) := by
    rw [h]
    norm_num
  have hstep : enrichStep extract 500 item =
      (some { item with fulltext := some item.content }, false) := by
    unfold enrichStep
    rw [if_pos ⟨hc, hlen⟩]
  refine ⟨hstep, ?_⟩
  unfold enrich_with_text
  simp [List.filterMap_cons, hstep]

/-- Closed witness for C4 at a concrete record. -/
theorem content_600_uses_content_without_extraction_witness :
    enrichStep (fun _ => none) 500 mediumArticle =
      (some { mediumArticle with fulltext := some mediumArticle.content }, false) ∧
    enrich_with_text (fun _ => none) 500 [mediumArticle] =
      [{ mediumArticle with fulltext := some mediumArticle.content }] :=
  content_600_uses_content_without_extraction (fun _ => none) mediumArticle
    (by simp [mediumArticle])

/-- C5 counterexample: `normalize_url` is not idempotent on every string —
on the empty string one application yields `"://"` and a second application
yields `"://://"`, so the canonical URL of a scheme-less input is not a
fixed point. -/
theorem normalize_url_not_idempotent_on_empty :
    normalize_url (normalize_url (str "")) ≠ normalize_url (str "") ∧
    normalize_url (str "") = str "://" ∧
    normalize_url (str "://") = str "://://" := by
  decide

/-- C5 amended: `normalize_title` is idempotent on every string, and
`normalize_url` is idempotent on every URL whose parse succeeds with a
non-empty scheme (in particular on every absolute `http(s)` URL); on
scheme-less inputs it need not be (see the counterexample). -/
theorem canonicalizers_idempotent (t : Str) :
    normalize_title (normalize_title t) = normalize_title t ∧
    (∀ u s n p, pyUrlparse u = Except.ok (s, n, p) → s ≠ [] →
      normalize_url (normalize_url u) = normalize_url u) :=
  ⟨normalize_title_idem t, fun _ _ _ _ h hs => normalize_url_idem_of_scheme h hs⟩

/-- Closed witness for C5 (amended) at a concrete title and URL. -/
theorem canonicalizers_idempotent_witness :
    normalize_title (normalize_title (str "Big News - The Verge")) =
      normalize_title (str "Big News - The Verge") ∧
    normalize_url (normalize_url (str "https://example.com/a?utm=1")) =
      normalize_url (str "https://example.com/a?utm=1") :=
  ⟨(canonicalizers_idempotent (str "Big News - The Verge")).1,
   (canonicalizers_idempotent (str "")).2 (str "https://example.com/a?utm=1")
     (str "https") (str "example.com") (str "/a") (by decide) (by decide)⟩

/-- C6 counterexample: the vocabulary list contains `"trade"` twice, so the
title `"trade"` scores 2 although it contains exactly one distinct matched
keyword — the score is not the count of distinct matched keywords. -/
theorem trade_scores_two_not_one :
    priorityScore (str "trade") = 2 ∧ distinctMatchedCount (str "trade") = 1 ∧
    priorityScore (str "trade") ≠ distinctMatchedCount (str "trade") := by
  decide

/-- C6 amended: the score counts matching *entries* of the vocabulary list,
which is the count of distinct matched keywords plus one extra when
`"trade"` matches (each keyword otherwise counted once, not per occurrence
in the title); the 3-versus-1 strict monotonicity still holds. -/
theorem score_adds_one_per_matching_vocabulary_entry :
    (∀ t, priorityScore t = distinctMatchedCount t +
      (if pyIn (str "trade") (pyLower t) then 1 else 0)) ∧
    (∀ t₁ t₂, 3 ≤ distinctMatchedCount t₁ → distinctMatchedCount t₂ ≤ 1 →
      priorityScore t₂ < priorityScore t₁) := by
  have key : ∀ t, priorityScore t = distinctMatchedCount t +
      (if pyIn (str "trade") (pyLower t) then 1 else 0) := by
    intro t
    unfold priorityScore distinctMatchedCount
    rw [countP_priorityKeywords]
    congr 1
    simp [decide_eq_true_eq]
  refine ⟨key, fun t₁ t₂ h1 h2 => ?_⟩
  have k1 := key t₁
  have k2 := key t₂
  have b2 : (if pyIn (str "trade") (pyLower t₂) then 1 else 0) ≤ 1 := by
    split <;> omega
  omega

/-- Closed witness for C6 (amended) at concrete titles. -/
theorem score_adds_one_per_matching_vocabulary_entry_witness :
    priorityScore (str "trade") < priorityScore (str "politics global science") :=
  score_adds_one_per_matching_vocabulary_entry.2
    (str "politics global science") (str "trade") (by decide) (by decide)

/-- C10: the uppercase vocabulary entry `"AI"` never occurs in a lowercased
title, so it contributes 0 to every score: the score over the full
vocabulary equals the score over the vocabulary without `"AI"`, and a title
about AI only gains score through the lowercase `"artificial intelligence"`
entry (or other matching keywords). -/
theorem uppercase_ai_contributes_nothing :
    (∀ t, ¬ pyIn (str "AI") (pyLower t)) ∧
    (∀ t, priorityScore t =
      keywordsWithoutAI.countP (fun k => decide (pyIn k (pyLower t)))) ∧
    priorityScore (str "Talks on AI") = 0 ∧
    priorityScore (str "Talks on artificial intelligence") = 1 := by
  refine ⟨ai_never_matches, fun t => ?_, by decide, by decide⟩
  exact countP_keywordsWithoutAI _ (decide_eq_false (ai_never_matches t))

/-- Walking the list mutates kept records' scores in place but neither
reorders nor changes anything else: blanking the scores recovers the walked
list. -/
theorem dedupWalk_snd_clearScore :
    ∀ (l : List Article) (u t : List Str),
      ((dedupWalk l u t).2).map clearScore = l.map clearScore := by
  intro l
  induction l with
  | nil => intro u t; rfl
  | cons item rest ih =>
    intro u t
    unfold dedupWalk
    by_cases h : normalize_url item.url ∈ u ∨ normalize_title item.title ∈ t
    · rw [if_pos h]
      simp only [List.map_cons]
      rw [ih]
    · rw [if_neg h]
      simp only [List.map_cons]
      rw [ih]
      rfl

/-- C9: `normalize_and_dedupe` sorts its input list in place — after the
call the caller's list is ordered by `published_at` descending (missing
dates sorting as `datetime.min`) — while, modulo the in-place
`priority_score` mutation of kept records, the caller's list still holds
exactly the records it held before (a permutation); the deduplicated result
is returned separately. -/
theorem dedupe_sorts_caller_list_in_place (items : List Article) :
    ((normalize_and_dedupe items).1).Pairwise (fun a b => dtKey b ≤ dtKey a) ∧
    ((normalize_and_dedupe items).1.map clearScore).Perm (items.map clearScore) := by
  have h1 : (normalize_and_dedupe items).1 =
      (dedupWalk (sortByDateDesc items) [] []).2 := rfl
  have hmap := dedupWalk_snd_clearScore (sortByDateDesc items) [] []
  haveI ht : IsTotal Article (fun a b : Article => dtKey b ≤ dtKey a) :=
    ⟨fun a b => Nat.le_total (dtKey b) (dtKey a)⟩
  haveI htr : IsTrans Article (fun a b : Article => dtKey b ≤ dtKey a) :=
    ⟨fun _ _ _ hab hbc => le_trans hbc hab⟩
  have hs : (sortByDateDesc items).Pairwise (fun a b => dtKey b ≤ dtKey a) :=
    List.sorted_insertionSort _ items
  constructor
  · have hs' : ((sortByDateDesc items).map clearScore).Pairwise
        (fun a b => dtKey b ≤ dtKey a) := by
      rw [List.pairwise_map]
      exact hs
    rw [← hmap, List.pairwise_map] at hs'
    rw [h1]
    exact hs'
  · rw [h1, hmap]
    exact (List.perm_insertionSort _ items).map clearScore

/-- Two records whose canonical URLs coincide: the first survives with its
score attached, the second is dropped, and the caller's list keeps both. -/
theorem dedupWalk_pair_dup_url (a b : Article)
    (hurl : normalize_url b.url = normalize_url a.url) :
    dedupWalk [a, b] [] [] = ([scoredArticle a], [scoredArticle a, b]) := by
  simp [dedupWalk, hurl]

theorem sortByDateDesc_early_late (T : Nat) :
    sortByDateDesc [articleEarly T, articleLate T] =
      [articleLate T, articleEarly T] := by
  have hcond : ¬ (dtKey (articleLate T) ≤ dtKey (articleEarly T)) := by
    simp only [dtKey, articleEarly, articleLate, Option.getD_some]
    omega
  unfold sortByDateDesc
  simp only [List.insertionSort, List.orderedInsert, if_neg hcond]

theorem dedupe_early_late (T : Nat) :
    (normalize_and_dedupe [articleEarly T, articleLate T]).2 =
      [scoredArticle (articleLate T)] := by
  have hurl : normalize_url (articleEarly T).url = normalize_url (articleLate T).url := by
    show normalize_url (str "https://example.com/a?utm=1") =
      normalize_url (str "https://example.com/a?utm=2")
    decide
  have h1 : normalize_and_dedupe [articleEarly T, articleLate T] =
      (let (dedup, mutated) :=
        dedupWalk (sortByDateDesc [articleEarly T, articleLate T]) [] []
       (mutated, sortByRankDesc dedup)) := rfl
  rw [h1, sortByDateDesc_early_late T,
      dedupWalk_pair_dup_url (articleLate T) (articleEarly T) hurl]
  rfl

theorem scoredArticle_late (T : Nat) :
    scoredArticle (articleLate T) =
      { articleLate T with priority_score := some 0 } := by
  have h0 : priorityScore (articleLate T).title = 0 := by
    show priorityScore (str "Beta headline") = 0
    decide
  unfold scoredArticle
  rw [h0]

theorem limited_early_late (T maxA : Nat) (hmax : 1 ≤ maxA) :
    limitedForEnrichment [articleEarly T, articleLate T] maxA =
      .ok [{ articleLate T with priority_score := some 0 }] := by
  unfold limitedForEnrichment
  rw [dedupe_early_late T, scoredArticle_late T]
  rw [if_pos (by simp [articleLate])]
  obtain ⟨k, rfl⟩ : ∃ k, maxA = k + 1 := ⟨maxA - 1, by omega⟩
  simp [sortByDateDesc, List.insertionSort, List.orderedInsert]

theorem enrich_late (T : Nat) (minC : Int) (extract : Str → Option Str)
    (hmin : minC < 1000) :
    enrich_with_text extract minC [{ articleLate T with priority_score := some 0 }] =
      [{ articleLate T with
          priority_score := some 0
          fulltext := some (List.replicate 1000 'y') }] := by
  have hne : ({ articleLate T with priority_score := some 0 } : Article).content ≠ [] := by
    show List.replicate 1000 'y' ≠ []
    simp
  have hlen : minC <
      ((({ articleLate T with priority_score := some 0 } : Article).content.length : Int)) := by
    show minC < ((List.replicate 1000 'y').length : Int)
    simpa using hmin
  have hstep : enrichStep extract minC { articleLate T with priority_score := some 0 } =
      (some { articleLate T with
              priority_score := some 0
              fulltext := some (List.replicate 1000 'y') }, false) := by
    unfold enrichStep
    rw [if_pos ⟨hne, hlen⟩]
    rfl
  unfold enrich_with_text
  simp [List.filterMap_cons, hstep]

/-- C3: for any two records with the canonical URL `https://example.com/a`
(queries `utm=1`/`utm=2`), different titles, 1000-character contents and
publication times `T` and `T + 1h`, the pipeline keeps exactly the record
published at `T + 1h`, and its `fulltext` is that record's `content` field
verbatim — for every extractor behaviour, every `max_articles ≥ 1` and
every `min_chars < 1000`. -/
theorem end_to_end_duplicate_url_keeps_newest (T maxA : Nat) (minC : Int)
    (extract : Str → Option Str) (hmax : 1 ≤ maxA) (hmin : minC < 1000) :
    process_articles extract [articleEarly T, articleLate T] maxA minC =
      .ok [{ articleLate T with
              priority_score := some 0
              fulltext := some (List.replicate 1000 'y') }] := by
  unfold process_articles
  rw [limited_early_late T maxA hmax]
  show Except.ok (enrich_with_text extract minC
    [{ articleLate T with priority_score := some 0 }]) = _
  rw [enrich_late T minC extract hmin]

/-- Closed witness for C3 at concrete parameters. -/
theorem end_to_end_duplicate_url_keeps_newest_witness :
    process_articles (fun _ => none) [articleEarly 86400, articleLate 86400] 5 500 =
      .ok [{ articleLate 86400 with
              priority_score := some 0
              fulltext := some (List.replicate 1000 'y') }] :=
  end_to_end_duplicate_url_keeps_newest 86400 5 500 (fun _ => none)
    (by norm_num) (by norm_num)

/-- C1 evaluated at the failing input: after dedup+rank the top-ranked
record is `rec1` (four keywords, oldest date), but the orchestrator
re-sorts by date before truncating, so with `max_articles = 3` enrichment
is invoked on the three newest records and the highest-ranked record is
not among them. -/
theorem truncation_drops_top_ranked_record :
    (normalize_and_dedupe tenRecords).2.take 3 =
      [scoredArticle rec1, scoredArticle rec10, scoredArticle rec9] ∧
    limitedForEnrichment tenRecords 3 =
      .ok [scoredArticle rec10, scoredArticle rec9, scoredArticle rec8] ∧
    scoredArticle rec1 ∉
      [scoredArticle rec10, scoredArticle rec9, scoredArticle rec8] := by
  decide

/-- C7 evaluated at the failing input: the dedup-stage sorts complete and
place the undated record last (its sort key is `datetime.min`, the oldest
possible), but the orchestrator's own sort evaluates
`datetime.min.replace(tzinfo=datetime.utc)` for that record and raises
`AttributeError`, aborting `process_articles`. -/
theorem missing_date_crashes_orchestrator :
    (normalize_and_dedupe [undatedArticle, rec2]).2 =
      [scoredArticle rec2, scoredArticle undatedArticle] ∧
    process_articles (fun _ => none) [undatedArticle, rec2] 5 500 =
      .error "AttributeError: type object datetime.datetime has no attribute utc" := by
  decide

/-- C8 counterexample: on a syntactically valid JSON payload of unexpected
shape (an `articles`/`docs` entry that is a number, not an object), the
NewsAPI and NYT adapters raise `AttributeError` past the adapter boundary
instead of returning an empty result. -/
theorem json_adapters_raise_on_malformed_payload :
    fetch_newsapi_articles (fun _ => none) 0 (str "k") (.ok malformedPayload) =
      .error PyExc.attributeError ∧
    fetch_nyt_articles (fun _ => none) 0 (str "k") (.ok malformedNytPayload) =
      .error PyExc.attributeError :=
  ⟨rfl, rfl⟩

/-- C8 amended: the JSON adapters return an empty result on a missing
credential and on any transport failure (`RequestException`: network
errors, HTTP error statuses, undecodable bodies), NewsAPI also on a
non-"ok" status; the RSS adapter never raises — a failing feed contributes
nothing while other feeds' articles are kept, so one feed's failure does
not empty the whole result; but a decodable payload of unexpected shape
raises an uncaught exception past the NewsAPI/NYT adapter boundary (see
the counterexample). -/
theorem adapters_swallow_transport_failures
    (parseIso : Str → Option Nat) (now : Nat) (apiKey : Str)
    (transport : Except Unit JVal) (stripHtml : Str → Str)
    (feedOracle : Str → Except Unit RssFeed) (urls : List Str) :
    fetch_newsapi_articles parseIso now [] transport = .ok [] ∧
    fetch_nyt_articles parseIso now [] transport = .ok [] ∧
    fetch_newsapi_articles parseIso now apiKey (.error ()) = .ok [] ∧
    fetch_nyt_articles parseIso now apiKey (.error ()) = .ok [] ∧
    (apiKey ≠ [] →
      fetch_newsapi_articles parseIso now apiKey (.ok errorStatusPayload) = .ok []) ∧
    ((∀ u ∈ urls, feedOracle u = .error ()) →
      fetch_rss stripHtml now feedOracle urls = []) ∧
    (∀ u₁ u₂ feed, feedOracle u₁ = .error () → feedOracle u₂ = .ok feed →
      fetch_rss stripHtml now feedOracle [u₁, u₂] =
        feed.entries.map (rssArticle stripHtml now feed.feedTitle)) := by
  refine ⟨rfl, rfl, ?_, ?_, ?_, ?_, ?_⟩
  · by_cases h : apiKey = []
    · unfold fetch_newsapi_articles
      rw [if_pos h]
    · unfold fetch_newsapi_articles
      rw [if_neg h]
      rfl
  · by_cases h : apiKey = []
    · unfold fetch_nyt_articles
      rw [if_pos h]
    · unfold fetch_nyt_articles
      rw [if_neg h]
      rfl
  · intro h
    unfold fetch_newsapi_articles
    rw [if_neg h]
    rfl
  · induction urls with
    | nil => intro _; rfl
    | cons u us ih =>
      intro hall
      have hu := hall u (List.mem_cons_self u us)
      have hrest : fetch_rss stripHtml now feedOracle us = [] :=
        ih (fun v hv => hall v (List.mem_cons_of_mem u hv))
      unfold fetch_rss at hrest ⊢
      rw [List.map_cons, List.flatten_cons, hu]
      simpa using hrest
  · intro u₁ u₂ feed h1 h2
    unfold fetch_rss
    rw [List.map_cons, List.map_cons, List.map_nil, h1, h2]
    simp

/-- Closed witness for C8 (amended) at concrete oracles. -/
theorem adapters_swallow_transport_failures_witness :
    fetch_newsapi_articles (fun _ => none) 0 (str "k") (.ok errorStatusPayload) = .ok [] ∧
    fetch_rss id 0 sampleFeedOracle [str "https://bad.example/1"] = [] ∧
    fetch_rss id 0 sampleFeedOracle
        [str "https://bad.example/1", str "https://good.example/rss"] =
      sampleFeed.entries.map (rssArticle id 0 sampleFeed.feedTitle) := by
  refine ⟨?_, ?_, ?_⟩
  · exact (adapters_swallow_transport_failures (fun _ => none) 0 (str "k")
      (.ok errorStatusPayload) id sampleFeedOracle []).2.2.2.2.1 (by decide)
  · exact (adapters_swallow_transport_failures (fun _ => none) 0 (str "k")
      (.error ()) id sampleFeedOracle [str "https://bad.example/1"]).2.2.2.2.2.1
      (by decide)
  · exact (adapters_swallow_transport_failures (fun _ => none) 0 (str "k")
      (.error ()) id sampleFeedOracle []).2.2.2.2.2.2
      (str "https://bad.example/1") (str "https://good.example/rss") sampleFeed
      (by decide) (by decide)

end NewsPipeline
